import Mathlib

/-!
Verification of the prompt-embedding store and season decision logic of the
excel-review-electron repository.

Scores and embedding components are modelled as exact rationals (`ℚ`); the
Python code computes with floats, but every claim settled here concerns
control flow, ordering and exact algebraic identities, for which exact
arithmetic is the faithful shallow embedding.  The float square root used by
the normalization step is passed in as an explicit function parameter.
-/

namespace SeasonDecide

/-- The label list of src/scripts/test_season.py, line 33:
`SEASONS = ["winter", "autumn", "summer", "spring", "no_person"]`. -/
def SEASONS : List String := ["winter", "autumn", "summer", "spring", "no_person"]

/-- Maximum of a list of scores (value of `max(scores)` over a nonempty list;
0 on the empty list, which the code never hits). -/
def listMax : List ℚ → ℚ
  | [] => 0
  | [x] => x
  | x :: y :: ys => max x (listMax (y :: ys))

/-- Index of the first occurrence of the maximum, the semantics of
`np.argmax` used at src/scripts/test_season.py line 63. -/
def argmaxIdx : List ℚ → Nat
  | [] => 0
  | [_] => 0
  | x :: y :: ys =>
      if (y :: ys).getD (argmaxIdx (y :: ys)) 0 > x then argmaxIdx (y :: ys) + 1 else 0

/-- The decision branch of `test_image`, src/scripts/test_season.py lines
63-70: `max_idx = np.argmax(scores[:4])`, `no_person_score = scores[4]`,
`max_clothing_score = scores[max_idx]`, then the override label `no_person`
with its score if `no_person_score > max_clothing_score`, else
`SEASONS[max_idx]` with `max_clothing_score`.  Returns (label, score). -/
def decideSeason (scores : List ℚ) : String × ℚ :=
  let maxIdx := argmaxIdx (scores.take 4)
  let noPersonScore := scores.getD 4 0
  let maxClothingScore := scores.getD maxIdx 0
  if noPersonScore > maxClothingScore then ("no_person", noPersonScore)
  else (SEASONS.getD maxIdx "", maxClothingScore)

theorem argmaxIdx_lt_length : ∀ (l : List ℚ), l ≠ [] → argmaxIdx l < l.length
  | [], h => absurd rfl h
  | [_], _ => Nat.zero_lt_one
  | x :: y :: ys, _ => by
      have ih := argmaxIdx_lt_length (y :: ys) (by simp)
      simp only [argmaxIdx]
      split
      · simpa using Nat.succ_lt_succ ih
      · simp

theorem listMax_cons (x : ℚ) (t : List ℚ) (h : t ≠ []) :
    listMax (x :: t) = max x (listMax t) := by
  cases t with
  | nil => exact absurd rfl h
  | cons y ys => rfl

/-- The entry at the argmax index is the maximum. -/
theorem getD_argmaxIdx : ∀ (l : List ℚ), l ≠ [] → l.getD (argmaxIdx l) 0 = listMax l
  | [], h => absurd rfl h
  | [_], _ => rfl
  | x :: y :: ys, _ => by
      have ih := getD_argmaxIdx (y :: ys) (by simp)
      have hmax : listMax (x :: y :: ys) = max x (listMax (y :: ys)) := rfl
      simp only [argmaxIdx]
      split
      · rename_i hgt
        rw [ih] at hgt
        simp only [List.getD_cons_succ, ih, hmax]
        exact (max_eq_right (le_of_lt hgt)).symm
      · rename_i hle
        rw [ih] at hle
        push_neg at hle
        simp only [List.getD_cons_zero, hmax]
        exact (max_eq_left hle).symm

/-- Every entry strictly before the argmax index is strictly below the
maximum: argmax returns the FIRST index attaining the maximum. -/
theorem getD_lt_of_lt_argmaxIdx :
    ∀ (l : List ℚ) (i : Nat), i < argmaxIdx l → l.getD i 0 < listMax l
  | [], i, h => by simp [argmaxIdx] at h
  | [_], i, h => by simp [argmaxIdx] at h
  | x :: y :: ys, i, h => by
      have hmax : listMax (x :: y :: ys) = max x (listMax (y :: ys)) := rfl
      simp only [argmaxIdx] at h
      split at h
      · rename_i hgt
        rw [getD_argmaxIdx (y :: ys) (by simp)] at hgt
        cases i with
        | zero =>
            simp only [List.getD_cons_zero, hmax]
            exact lt_max_of_lt_right hgt
        | succ j =>
            have hj : j < argmaxIdx (y :: ys) := Nat.lt_of_succ_lt_succ h
            have := getD_lt_of_lt_argmaxIdx (y :: ys) j hj
            simp only [List.getD_cons_succ, hmax]
            exact lt_max_of_lt_right this
      · exact absurd h (Nat.not_lt_zero i)

/-- Every entry is at most the maximum. -/
theorem getD_le_listMax : ∀ (l : List ℚ) (i : Nat), i < l.length → l.getD i 0 ≤ listMax l
  | [], i, h => by simp at h
  | [x], i, h => by
      simp only [List.length_singleton, Nat.lt_one_iff] at h
      subst h
      simp [listMax]
  | x :: y :: ys, i, h => by
      have hmax : listMax (x :: y :: ys) = max x (listMax (y :: ys)) := rfl
      cases i with
      | zero => simp [hmax]
      | succ j =>
          have hj : j < (y :: ys).length := Nat.lt_of_succ_lt_succ h
          have := getD_le_listMax (y :: ys) j hj
          simp only [List.getD_cons_succ, hmax]
          exact le_max_of_le_right this

/-- If position i0 attains the maximum and no earlier position does, then
argmax is exactly i0. -/
theorem argmaxIdx_eq_of_first (l : List ℚ) (i0 : Nat) (hlen : i0 < l.length)
    (hmax : l.getD i0 0 = listMax l) (hfirst : ∀ i, i < i0 → l.getD i 0 ≠ listMax l) :
    argmaxIdx l = i0 := by
  have hne : l ≠ [] := by
    intro h
    subst h
    simp at hlen
  rcases Nat.lt_trichotomy (argmaxIdx l) i0 with h | h | h
  · exact absurd (getD_argmaxIdx l hne) (hfirst _ h)
  · exact h
  · have := getD_lt_of_lt_argmaxIdx l i0 h
    rw [hmax] at this
    exact absurd this (lt_irrefl _)

theorem getD_take_eq (l : List ℚ) (n i : Nat) (h : i < n) :
    (l.take n).getD i 0 = l.getD i 0 := by
  induction l generalizing n i with
  | nil => simp
  | cons x xs ih =>
      cases n with
      | zero => exact absurd h (Nat.not_lt_zero i)
      | succ m =>
          cases i with
          | zero => simp
          | succ j =>
              simp only [List.take_succ_cons, List.getD_cons_succ]
              exact ih m j (Nat.lt_of_succ_lt_succ h)

theorem seasons_getD_ne (i : Nat) (h : i < 4) : SEASONS.getD i "" ≠ "no_person" := by
  interval_cases i <;> decide

theorem take4_len (scores : List ℚ) (h : scores.length = 5) :
    (scores.take 4).length = 4 := by
  simp [List.length_take, h]

/-- Core case analysis of the decision: override branch on strict
inequality, else a maximum-scoring primary group. -/
theorem decideSeason_cases (scores : List ℚ) (h : scores.length = 5) :
    (scores.getD 4 0 > listMax (scores.take 4) →
      decideSeason scores = ("no_person", scores.getD 4 0)) ∧
    (¬ scores.getD 4 0 > listMax (scores.take 4) →
      ∃ i, i < 4 ∧ scores.getD i 0 = listMax (scores.take 4) ∧
        decideSeason scores = (SEASONS.getD i "", listMax (scores.take 4))) := by
  have hlen : (scores.take 4).length = 4 := take4_len scores h
  have hne : scores.take 4 ≠ [] := by
    intro hc
    rw [hc] at hlen
    simp at hlen
  have hlt : argmaxIdx (scores.take 4) < 4 := by
    have := argmaxIdx_lt_length (scores.take 4) hne
    rwa [hlen] at this
  have hidx : scores.getD (argmaxIdx (scores.take 4)) 0 = listMax (scores.take 4) := by
    rw [← getD_take_eq scores 4 _ hlt]
    exact getD_argmaxIdx (scores.take 4) hne
  constructor
  · intro hgt
    simp only [decideSeason, hidx]
    rw [if_pos hgt]
  · intro hle
    refine ⟨argmaxIdx (scores.take 4), hlt, hidx, ?_⟩
    simp only [decideSeason, hidx]
    rw [if_neg hle]

/-- C1.  For every score vector, the decision returns the override label
`no_person` with the override score when the override score strictly exceeds
the maximum primary (clothing) score; otherwise it returns the label of a
maximum-scoring primary group together with that maximum score. -/
theorem decideSeason_override_or_primary (scores : List ℚ) (h : scores.length = 5) :
    (scores.getD 4 0 > listMax (scores.take 4) →
      decideSeason scores = ("no_person", scores.getD 4 0)) ∧
    (¬ scores.getD 4 0 > listMax (scores.take 4) →
      ∃ i, i < 4 ∧ scores.getD i 0 = listMax (scores.take 4) ∧
        decideSeason scores = (SEASONS.getD i "", listMax (scores.take 4))) :=
  decideSeason_cases scores h

/-- Witness for C1 at a concrete score vector where the override strictly
wins. -/
theorem decideSeason_override_or_primary_witness :
    decideSeason [0, 0, 0, 0, (1 : ℚ)] = ("no_person", (1 : ℚ)) :=
  (decideSeason_override_or_primary [0, 0, 0, 0, (1 : ℚ)] (by decide)).1 (by decide)

/-- C2 counterexample.  At a score vector where the override score exactly
equals the maximum primary score (a tie at 1/2), the code returns the primary
label `winter`, not the override label `no_person`: the override does NOT win
ties (src/scripts/test_season.py line 67 uses strict `>`). -/
theorem decideSeason_tie_override_cex :
    ([(1 : ℚ), 0, 0, 0, 1].getD 4 0 = listMax ([(1 : ℚ), 0, 0, 0, 1].take 4)) ∧
    decideSeason [(1 : ℚ), 0, 0, 0, 1] = ("winter", (1 : ℚ)) ∧
    ("winter" : String) ≠ "no_person" := by
  refine ⟨by decide, by decide, by decide⟩

/-- C2 amended.  When the override score exactly equals the maximum primary
score, the decision returns a maximum-scoring primary group's label (never
the override's): the override wins only on strict inequality. -/
theorem decideSeason_tie_primary (scores : List ℚ) (h : scores.length = 5)
    (htie : scores.getD 4 0 = listMax (scores.take 4)) :
    ∃ i, i < 4 ∧ scores.getD i 0 = listMax (scores.take 4) ∧
      decideSeason scores = (SEASONS.getD i "", listMax (scores.take 4)) ∧
      (decideSeason scores).1 ≠ "no_person" := by
  have hov : ¬ scores.getD 4 0 > listMax (scores.take 4) := by
    rw [htie]
    exact lt_irrefl _
  obtain ⟨i, hi, hval, heq⟩ := (decideSeason_cases scores h).2 hov
  exact ⟨i, hi, hval, heq, by rw [heq]; exact seasons_getD_ne i hi⟩

/-- Witness for the amended C2 at the concrete tie vector. -/
theorem decideSeason_tie_primary_witness :
    ∃ i, i < 4 ∧ ([(1 : ℚ), 0, 0, 0, 1]).getD i 0 =
        listMax (([(1 : ℚ), 0, 0, 0, 1] : List ℚ).take 4) ∧
      decideSeason [(1 : ℚ), 0, 0, 0, 1] =
        (SEASONS.getD i "", listMax (([(1 : ℚ), 0, 0, 0, 1] : List ℚ).take 4)) ∧
      (decideSeason [(1 : ℚ), 0, 0, 0, 1]).1 ≠ "no_person" :=
  decideSeason_tie_primary [(1 : ℚ), 0, 0, 0, 1] (by decide) (by decide)

/-- C8.  When two or more primary groups attain the same maximum score and
the override does not strictly exceed it, the decision selects the FIRST
maximum-attaining group in declaration order (np.argmax first-occurrence
semantics).  `decideSeason` is a pure function of its score vector, so the
selection is deterministic across repeated runs by construction. -/
theorem decideSeason_primary_tie_first (scores : List ℚ) (h : scores.length = 5)
    (i0 : Nat) (hi0 : i0 < 4)
    (hmax : scores.getD i0 0 = listMax (scores.take 4))
    (hfirst : ∀ i, i < i0 → scores.getD i 0 ≠ listMax (scores.take 4))
    (htie : ∃ j, j < 4 ∧ j ≠ i0 ∧ scores.getD j 0 = listMax (scores.take 4))
    (hov : ¬ scores.getD 4 0 > listMax (scores.take 4)) :
    decideSeason scores = (SEASONS.getD i0 "", listMax (scores.take 4)) := by
  have hlen : (scores.take 4).length = 4 := take4_len scores h
  have hargmax : argmaxIdx (scores.take 4) = i0 := by
    apply argmaxIdx_eq_of_first
    · rwa [hlen]
    · rw [getD_take_eq scores 4 i0 hi0]
      exact hmax
    · intro i hi
      rw [getD_take_eq scores 4 i (lt_trans hi hi0)]
      exact hfirst i hi
  have hidx : scores.getD (argmaxIdx (scores.take 4)) 0 = listMax (scores.take 4) := by
    rw [hargmax]
    exact hmax
  simp only [decideSeason, hargmax, hmax]
  rw [if_neg hov]

/-- Witness for C8: scores [1/2, 1/2, 0, 0, 0] tie between winter (index 0)
and autumn (index 1); winter, the first in declaration order, is selected. -/
theorem decideSeason_primary_tie_first_witness :
    decideSeason [(1 : ℚ), 1, 0, 0, 0] =
      (SEASONS.getD 0 "", listMax (([(1 : ℚ), 1, 0, 0, 0] : List ℚ).take 4)) :=
  decideSeason_primary_tie_first [(1 : ℚ), 1, 0, 0, 0] (by decide) 0 (by decide)
    (by decide) (fun i hi => absurd hi (Nat.not_lt_zero i))
    ⟨1, by decide, by decide, by decide⟩ (by decide)

end SeasonDecide

namespace EmbedStore

/-- An embedding vector: the per-prompt list of floats, modelled exactly. -/
abbrev Vec := List ℚ

/-- The `existing_embeddings` dict of src/scripts/update_embeddings.py,
modelled as an association list from prompt text to vector.  Python dict
insertion appends a fresh key at the end; deletion removes the key;
membership is key lookup.  The operations below never create duplicate
keys. -/
abbrev Store := List (String × Vec)

/-- `text in existing_embeddings` (dict key membership). -/
def hasKey (S : Store) (t : String) : Bool := S.any (fun p => p.1 == t)

/-- `existing_embeddings[text]` as an option (first matching key). -/
def lookup : Store → String → Option Vec
  | [], _ => none
  | p :: ps, t => if p.1 = t then some p.2 else lookup ps t

/-- `del existing_embeddings[text]`. -/
def removeKey (S : Store) (t : String) : Store := S.filter (fun p => p.1 != t)

/-- One iteration of the removal loop, src/scripts/update_embeddings.py
lines 88-91: `if old_text in existing_embeddings: del ...`. -/
def removeStep (S : Store) (t : String) : Store :=
  if hasKey S t then removeKey S t else S

/-- The whole removal loop over `old_texts_to_remove`. -/
def removeAll (S : Store) (T : List String) : Store := T.foldl removeStep S

/-- Sum of squares of the components of a vector. -/
def sumSq (v : Vec) : ℚ := (v.map (fun x => x * x)).sum

/-- `text_embeds.norm()`: the L2 norm, with the floating square root made an
explicit parameter `sq` (any function standing for float sqrt). -/
def norm2 (sq : ℚ → ℚ) (v : Vec) : ℚ := sq (sumSq v)

/-- `text_embeds / text_embeds.norm(dim=-1, keepdim=True)`,
src/scripts/update_embeddings.py line 104: componentwise division by the L2
norm, with no zero-norm guard (torch division by zero does not raise). -/
def normalize (sq : ℚ → ℚ) (v : Vec) : Vec := v.map (fun x => x / norm2 sq v)

/-- One iteration of the upsert loop, src/scripts/update_embeddings.py lines
95-106: skip texts already present (`continue`), else encode, normalize and
insert.  The second component of the accumulator records, in order, every
text for which the encoder (`model.get_text_features`) was invoked. -/
def upsertStep (sq : ℚ → ℚ) (enc : String → Vec) (acc : Store × List String)
    (t : String) : Store × List String :=
  if hasKey acc.1 t then acc
  else (acc.1 ++ [(t, normalize sq (enc t))], acc.2 ++ [t])

/-- The whole upsert loop over `new_texts`; returns the updated store and
the list of texts that were actually encoded. -/
def upsert (sq : ℚ → ℚ) (enc : String → Vec) (S : Store) (T : List String) :
    Store × List String :=
  T.foldl (upsertStep sq enc) (S, [])

/-- The single error the load path can surface: `json.load` raising on
malformed JSON (src/scripts/update_embeddings.py line 84, uncaught). -/
inductive LoadError where
  | parseFailure
deriving DecidableEq

/-- Loading, src/scripts/update_embeddings.py lines 81-85.  The input models
the persisted state: `none` = file absent (store starts empty, line 81);
`some none` = file present but `json.load` raises (the exception propagates,
no store is produced); `some (some s)` = the parsed mapping, which the code
returns with NO validation of any kind (no dimension check). -/
def load : Option (Option Store) → Except LoadError Store
  | none => .ok []
  | some none => .error .parseFailure
  | some (some s) => .ok s

/-- File-system operations performed by the save path. -/
inductive FileOp where
  | openTrunc (path : String)
  | write (path : String) (data : String)
  | close (path : String)
  | rename (src : String) (dst : String)
deriving DecidableEq

/-- The destination constant `EMBEDDINGS_PATH` of
src/scripts/update_embeddings.py line 12. -/
def EMBEDDINGS_PATH : String := "electron/models/text-embeddings.json"

/-- Saving, src/scripts/update_embeddings.py lines 109-110:
`with open(EMBEDDINGS_PATH, "w") as f: json.dump(existing_embeddings, f)`.
The destination itself is opened in truncating write mode, the serialized
payload is written, and the handle closed.  No temporary path and no rename
appear anywhere in the code. -/
def save (dest : String) (payload : String) : List FileOp :=
  [.openTrunc dest, .write dest payload, .close dest]

/-- Effect of one file operation on a file system (path to content map). -/
def applyOp (fs : String → Option String) : FileOp → (String → Option String)
  | .openTrunc p => fun q => if q = p then some "" else fs q
  | .write p data => fun q => if q = p then some ((fs p).getD "" ++ data) else fs q
  | .close _ => fs
  | .rename src dst =>
      fun q => if q = dst then fs src else if q = src then none else fs q

/-- Running a sequence of file operations. -/
def runOps (fs : String → Option String) (ops : List FileOp) : String → Option String :=
  ops.foldl applyOp fs

/-- The whole update flow of src/scripts/update_embeddings.py lines 80-111:
load the persisted store, run the removal loop, run the upsert loop (save
then writes the first component out). -/
def updateFlow (sq : ℚ → ℚ) (enc : String → Vec) (file : Option (Option Store))
    (oldTexts newTexts : List String) : Except LoadError (Store × List String) :=
  match load file with
  | .error e => .error e
  | .ok s => .ok (upsert sq enc (removeAll s oldTexts) newTexts)

theorem lookup_isSome_of_hasKey (S : Store) (t : String) :
    hasKey S t = true ↔ (lookup S t).isSome = true := by
  induction S with
  | nil => simp [hasKey, lookup]
  | cons p ps ih =>
      simp only [hasKey, List.any_cons, lookup, Bool.or_eq_true, beq_iff_eq]
      by_cases h : p.1 = t
      · simp [h]
      · simp [h, hasKey] at ih ⊢
        exact ih

theorem lookup_eq_none_of_not_hasKey (S : Store) (t : String) (h : hasKey S t = false) :
    lookup S t = none := by
  cases hl : lookup S t with
  | none => rfl
  | some v =>
      have hs : (lookup S t).isSome = true := by simp [hl]
      rw [← lookup_isSome_of_hasKey, h] at hs
      cases hs

theorem lookup_removeKey (S : Store) (t u : String) :
    lookup (removeKey S t) u = if u = t then none else lookup S u := by
  induction S with
  | nil => simp [removeKey, lookup]
  | cons p ps ih =>
      simp only [removeKey, List.filter_cons] at ih ⊢
      by_cases hpt : p.1 = t
      · have hb : (p.1 != t) = false := by simp [hpt]
        rw [hb]
        simp only [Bool.false_eq_true, if_false]
        rw [ih]
        by_cases hut : u = t
        · simp [hut]
        · have hpu : ¬ p.1 = u := fun hc => hut (by rw [← hc, hpt])
          simp [lookup, hut, hpu]
      · have hb : (p.1 != t) = true := by simp [hpt]
        rw [hb]
        simp only [if_true]
        by_cases hpu : p.1 = u
        · have hut : ¬ u = t := fun hc => hpt (hpu.symm ▸ hc)
          simp [lookup, hpu, hut]
        · simp only [lookup, if_neg hpu]
          exact ih

theorem lookup_removeStep (S : Store) (t u : String) :
    lookup (removeStep S t) u = if u = t then none else lookup S u := by
  unfold removeStep
  by_cases h : hasKey S t
  · rw [if_pos h]
    exact lookup_removeKey S t u
  · rw [if_neg h]
    by_cases hut : u = t
    · rw [if_pos hut, hut]
      exact lookup_eq_none_of_not_hasKey S t (by simpa using h)
    · rw [if_neg hut]

/-- Lookup after the whole removal loop: removed keys are gone, everything
else is untouched. -/
theorem lookup_removeAll (S : Store) (T : List String) (u : String) :
    lookup (removeAll S T) u = if u ∈ T then none else lookup S u := by
  induction T generalizing S with
  | nil => simp [removeAll]
  | cons t ts ih =>
      simp only [removeAll, List.foldl_cons] at ih ⊢
      rw [ih (removeStep S t), lookup_removeStep]
      by_cases hut : u = t
      · simp [hut]
      · by_cases huts : u ∈ ts
        · simp [huts, hut]
        · simp [huts, hut, List.mem_cons]

theorem hasKey_append (A B : Store) (u : String) :
    hasKey (A ++ B) u = (hasKey A u || hasKey B u) := by
  simp [hasKey, List.any_append]

theorem lookup_append_left (A B : Store) (u : String) (h : hasKey A u = true) :
    lookup (A ++ B) u = lookup A u := by
  induction A with
  | nil => simp [hasKey] at h
  | cons p ps ih =>
      simp only [List.cons_append, lookup]
      by_cases hpu : p.1 = u
      · simp [hpu]
      · rw [if_neg hpu, if_neg hpu]
        apply ih
        simp only [hasKey, List.any_cons, Bool.or_eq_true, beq_iff_eq] at h
        rcases h with h | h
        · exact absurd h hpu
        · exact h

theorem lookup_append_right (A B : Store) (u : String) (h : hasKey A u = false) :
    lookup (A ++ B) u = lookup B u := by
  induction A with
  | nil => simp
  | cons p ps ih =>
      simp only [hasKey, List.any_cons, Bool.or_eq_false_iff, beq_eq_false_iff_ne,
        ne_eq] at h
      simp only [List.cons_append, lookup, if_neg h.1]
      exact ih h.2

theorem hasKey_upsertStep_mono (sq : ℚ → ℚ) (enc : String → Vec)
    (acc : Store × List String) (t u : String) (h : hasKey acc.1 u = true) :
    hasKey (upsertStep sq enc acc t).1 u = true := by
  unfold upsertStep
  by_cases ht : hasKey acc.1 t
  · rw [if_pos ht]
    exact h
  · rw [if_neg ht]
    simp only [hasKey_append, h, Bool.true_or]

theorem hasKey_upsertStep_self (sq : ℚ → ℚ) (enc : String → Vec)
    (acc : Store × List String) (t : String) :
    hasKey (upsertStep sq enc acc t).1 t = true := by
  unfold upsertStep
  by_cases ht : hasKey acc.1 t
  · rw [if_pos ht]
    exact ht
  · rw [if_neg ht]
    simp [hasKey_append, hasKey]

theorem hasKey_upsertFold_mono (sq : ℚ → ℚ) (enc : String → Vec) :
    ∀ (T : List String) (acc : Store × List String) (u : String),
      hasKey acc.1 u = true → hasKey (T.foldl (upsertStep sq enc) acc).1 u = true
  | [], acc, u, h => h
  | t :: ts, acc, u, h => by
      simp only [List.foldl_cons]
      exact hasKey_upsertFold_mono sq enc ts _ u (hasKey_upsertStep_mono sq enc acc t u h)

theorem hasKey_upsertFold_mem (sq : ℚ → ℚ) (enc : String → Vec) :
    ∀ (T : List String) (acc : Store × List String) (t : String), t ∈ T →
      hasKey (T.foldl (upsertStep sq enc) acc).1 t = true
  | [], acc, t, h => absurd h (List.not_mem_nil t)
  | u :: ts, acc, t, h => by
      simp only [List.foldl_cons]
      rcases List.mem_cons.mp h with h | h
      · subst h
        exact hasKey_upsertFold_mono sq enc ts _ t (hasKey_upsertStep_self sq enc acc t)
      · exact hasKey_upsertFold_mem sq enc ts _ t h

theorem upsertFold_skip_all (sq : ℚ → ℚ) (enc : String → Vec) :
    ∀ (T : List String) (acc : Store × List String),
      (∀ t ∈ T, hasKey acc.1 t = true) → T.foldl (upsertStep sq enc) acc = acc
  | [], acc, _ => rfl
  | t :: ts, acc, h => by
      have ht : hasKey acc.1 t = true := h t (List.mem_cons_self t ts)
      simp only [List.foldl_cons, upsertStep, if_pos ht]
      exact upsertFold_skip_all sq enc ts acc (fun u hu => h u (List.mem_cons_of_mem t hu))

theorem lookup_upsertFold_of_hasKey (sq : ℚ → ℚ) (enc : String → Vec) :
    ∀ (T : List String) (acc : Store × List String) (u : String),
      hasKey acc.1 u = true →
      lookup (T.foldl (upsertStep sq enc) acc).1 u = lookup acc.1 u
  | [], acc, u, h => rfl
  | t :: ts, acc, u, h => by
      simp only [List.foldl_cons]
      rw [lookup_upsertFold_of_hasKey sq enc ts _ u (hasKey_upsertStep_mono sq enc acc t u h)]
      unfold upsertStep
      by_cases ht : hasKey acc.1 t
      · rw [if_pos ht]
      · rw [if_neg ht]
        exact lookup_append_left acc.1 _ u h

theorem not_encoded_upsertFold (sq : ℚ → ℚ) (enc : String → Vec) :
    ∀ (T : List String) (acc : Store × List String) (u : String),
      hasKey acc.1 u = true → u ∉ acc.2 →
      u ∉ (T.foldl (upsertStep sq enc) acc).2
  | [], acc, u, _, h2 => h2
  | t :: ts, acc, u, h1, h2 => by
      simp only [List.foldl_cons]
      apply not_encoded_upsertFold sq enc ts _ u
        (hasKey_upsertStep_mono sq enc acc t u h1)
      unfold upsertStep
      by_cases ht : hasKey acc.1 t
      · rw [if_pos ht]
        exact h2
      · rw [if_neg ht]
        simp only [List.mem_append, List.mem_singleton]
        rintro (hc | hc)
        · exact h2 hc
        · subst hc
          rw [h1] at ht
          exact ht rfl

theorem lookup_upsertFold_new (sq : ℚ → ℚ) (enc : String → Vec) :
    ∀ (T : List String) (acc : Store × List String) (t : String), t ∈ T →
      hasKey acc.1 t = false →
      lookup (T.foldl (upsertStep sq enc) acc).1 t = some (normalize sq (enc t))
  | [], acc, t, h, _ => absurd h (List.not_mem_nil t)
  | u :: ts, acc, t, h, hk => by
      simp only [List.foldl_cons]
      by_cases htu : t = u
      · subst htu
        have hstep : upsertStep sq enc acc t =
            (acc.1 ++ [(t, normalize sq (enc t))], acc.2 ++ [t]) := by
          unfold upsertStep
          rw [if_neg (by rw [hk]; exact Bool.false_ne_true)]
        rw [hstep]
        have hkey : hasKey (acc.1 ++ [(t, normalize sq (enc t))]) t = true := by
          simp [hasKey_append, hasKey]
        rw [lookup_upsertFold_of_hasKey sq enc ts _ t hkey]
        simp only
        rw [lookup_append_right acc.1 _ t hk]
        simp [lookup]
      · rcases List.mem_cons.mp h with hc | hc
        · exact absurd hc htu
        · apply lookup_upsertFold_new sq enc ts _ t hc
          unfold upsertStep
          by_cases hu : hasKey acc.1 u
          · rw [if_pos hu]
            exact hk
          · rw [if_neg hu]
            have hut : (u == t) = false := by
              rw [beq_eq_false_iff_ne]
              exact fun hc2 => htu hc2.symm
            show hasKey (acc.1 ++ [(u, normalize sq (enc u))]) t = false
            rw [hasKey_append, hk]
            simp [hasKey, hut]

theorem lookup_upsert_of_hasKey (sq : ℚ → ℚ) (enc : String → Vec) (S : Store)
    (T : List String) (u : String) (h : hasKey S u = true) :
    lookup (upsert sq enc S T).1 u = lookup S u :=
  lookup_upsertFold_of_hasKey sq enc T (S, []) u h

theorem not_encoded_upsert (sq : ℚ → ℚ) (enc : String → Vec) (S : Store)
    (T : List String) (u : String) (h : hasKey S u = true) :
    u ∉ (upsert sq enc S T).2 :=
  not_encoded_upsertFold sq enc T (S, []) u h (List.not_mem_nil u)

theorem not_hasKey_of_lookup_none (S : Store) (t : String)
    (h : lookup S t = none) : hasKey S t = false := by
  cases hh : hasKey S t
  · rfl
  · have := (lookup_isSome_of_hasKey S t).mp hh
    rw [h] at this
    cases this

theorem sumSq_cons (x : ℚ) (xs : Vec) : sumSq (x :: xs) = x * x + sumSq xs := rfl

theorem sumSq_map_div (v : Vec) (c : ℚ) :
    sumSq (v.map (fun x => x / c)) = sumSq v / (c * c) := by
  induction v with
  | nil => simp [sumSq]
  | cons x xs ih =>
      rw [List.map_cons, sumSq_cons, sumSq_cons, ih, div_mul_div_comm, div_add_div_same]

theorem sumSq_normalize (sq : ℚ → ℚ) (v : Vec)
    (hs : sq (sumSq v) * sq (sumSq v) = sumSq v) (hnz : sumSq v ≠ 0) :
    sumSq (normalize sq v) = 1 := by
  unfold normalize norm2
  rw [sumSq_map_div, hs, div_self hnz]

theorem mem_removeStep_sub (S : Store) (t : String) (p : String × Vec)
    (h : p ∈ removeStep S t) : p ∈ S := by
  unfold removeStep at h
  split at h
  · exact List.mem_of_mem_filter h
  · exact h

theorem mem_removeAll_sub :
    ∀ (R : List String) (S : Store) (p : String × Vec), p ∈ removeAll S R → p ∈ S
  | [], S, p, h => h
  | t :: ts, S, p, h => by
      simp only [removeAll, List.foldl_cons] at h
      exact mem_removeStep_sub S t p (mem_removeAll_sub ts (removeStep S t) p h)

theorem norm_upsertFold (sq : ℚ → ℚ) (enc : String → Vec)
    (henc : ∀ t, sumSq (enc t) ≠ 0 ∧ sq (sumSq (enc t)) * sq (sumSq (enc t)) = sumSq (enc t)) :
    ∀ (T : List String) (acc : Store × List String),
      (∀ p ∈ acc.1, sumSq p.2 = 1) →
      ∀ p ∈ (T.foldl (upsertStep sq enc) acc).1, sumSq p.2 = 1
  | [], acc, hacc, p, hp => hacc p hp
  | t :: ts, acc, hacc, p, hp => by
      simp only [List.foldl_cons] at hp
      refine norm_upsertFold sq enc henc ts _ ?_ p hp
      intro q hq
      unfold upsertStep at hq
      split at hq
      · exact hacc q hq
      · simp only [List.mem_append, List.mem_singleton] at hq
        rcases hq with hq | hq
        · exact hacc q hq
        · subst hq
          exact sumSq_normalize sq (enc t) (henc t).2 (henc t).1

/-- C3.  `upsert` is idempotent (running the upsert loop a second time over
the same text list changes nothing and encodes nothing), and every text
already present as a key keeps its stored embedding and is never passed to
the encoder. -/
theorem upsert_idempotent (sq : ℚ → ℚ) (enc : String → Vec) (S : Store)
    (T : List String) :
    (upsert sq enc (upsert sq enc S T).1 T).1 = (upsert sq enc S T).1 ∧
    (upsert sq enc (upsert sq enc S T).1 T).2 = [] ∧
    (∀ t, hasKey S t = true →
      lookup (upsert sq enc S T).1 t = lookup S t ∧ t ∉ (upsert sq enc S T).2) := by
  have hall : ∀ t ∈ T, hasKey ((upsert sq enc S T).1, ([] : List String)).1 t = true :=
    fun t ht => hasKey_upsertFold_mem sq enc T (S, []) t ht
  have hskip := upsertFold_skip_all sq enc T ((upsert sq enc S T).1, []) hall
  refine ⟨?_, ?_, ?_⟩
  · show (T.foldl (upsertStep sq enc) ((upsert sq enc S T).1, [])).1 = _
    rw [hskip]
  · show (T.foldl (upsertStep sq enc) ((upsert sq enc S T).1, [])).2 = _
    rw [hskip]
  · intro t ht
    exact ⟨lookup_upsert_of_hasKey sq enc S T t ht, not_encoded_upsert sq enc S T t ht⟩

/-- Witness for C3 on a concrete store, text list, encoder and square
root. -/
theorem upsert_idempotent_witness :
    (upsert (fun q => q) (fun _ => [(1 : ℚ)])
        (upsert (fun q => q) (fun _ => [(1 : ℚ)]) [("a", [(1 : ℚ)])] ["a", "b"]).1
        ["a", "b"]).1 =
      (upsert (fun q => q) (fun _ => [(1 : ℚ)]) [("a", [(1 : ℚ)])] ["a", "b"]).1 ∧
    lookup (upsert (fun q => q) (fun _ => [(1 : ℚ)]) [("a", [(1 : ℚ)])] ["a", "b"]).1 "a" =
      lookup [("a", [(1 : ℚ)])] "a" ∧
    "a" ∉ (upsert (fun q => q) (fun _ => [(1 : ℚ)]) [("a", [(1 : ℚ)])] ["a", "b"]).2 := by
  obtain ⟨h1, _, h3⟩ :=
    upsert_idempotent (fun q => q) (fun _ => [(1 : ℚ)]) [("a", [(1 : ℚ)])] ["a", "b"]
  obtain ⟨h4, h5⟩ := h3 "a" (by decide)
  exact ⟨h1, h4, h5⟩

/-- C4 counterexample.  With an encoder returning the zero vector (L2 norm
numerically zero) for "a", the upsert loop still INSERTS the key, performing
the degenerate division componentwise: no DegenerateVectorError exists and
no failure occurs (src/scripts/update_embeddings.py lines 100-105 have no
zero-norm check and no raise). -/
theorem upsert_zero_norm_inserts_cex :
    sumSq ((fun _ => [(0 : ℚ)]) "a") = 0 ∧
    (upsert (fun q => q) (fun _ => [(0 : ℚ)]) [] ["a"]).1 = [("a", [(0 : ℚ)])] := by
  constructor
  · simp [sumSq]
  · simp [upsert, upsertStep, hasKey, normalize, norm2, sumSq, zero_div]

/-- C4 amended.  For every text not already in the store, the upsert loop
inserts the encoder output divided componentwise by its L2 norm; when that
norm is zero the degenerate division is performed and the entry is inserted
anyway (the code raises no DegenerateVectorError). -/
theorem upsert_normalizes_new (sq : ℚ → ℚ) (enc : String → Vec) (S : Store)
    (T : List String) (t : String) (ht : t ∈ T) (hk : hasKey S t = false) :
    lookup (upsert sq enc S T).1 t = some (normalize sq (enc t)) :=
  lookup_upsertFold_new sq enc T (S, []) t ht hk

/-- Witness for the amended C4 on a concrete new text. -/
theorem upsert_normalizes_new_witness :
    lookup (upsert (fun q => q) (fun _ => [(1 : ℚ)]) [] ["a"]).1 "a" =
      some (normalize (fun q => q) ((fun _ => [(1 : ℚ)]) "a")) :=
  upsert_normalizes_new (fun q => q) (fun _ => [(1 : ℚ)]) [] ["a"] "a"
    (by simp) (by rfl)

/-- C5 counterexample.  A parsed store whose two entries have vector lengths
1 and 2 (inconsistent dimensions) loads successfully with no error: the code
performs no dimension validation (src/scripts/update_embeddings.py lines
81-85 call json.load and use the result as-is). -/
theorem load_inconsistent_lengths_cex :
    load (some (some [("a", [(1 : ℚ)]), ("b", [(1 : ℚ), 2])])) =
      Except.ok [("a", [(1 : ℚ)]), ("b", [(1 : ℚ), 2])] ∧
    [(1 : ℚ)].length ≠ [(1 : ℚ), 2].length :=
  ⟨rfl, by decide⟩

/-- C5 amended.  Loading fails — the json.load exception propagates and no
store is produced — when the persisted JSON is structurally malformed; an
absent file yields the empty store; but any successfully parsed mapping is
returned as-is, with no validation of vector lengths against any declared
dimension. -/
theorem load_malformed_fails_no_dim_check :
    load (some none) = Except.error LoadError.parseFailure ∧
    load none = Except.ok [] ∧
    ∀ s : Store, load (some (some s)) = Except.ok s :=
  ⟨rfl, rfl, fun _ => rfl⟩

/-- C6 counterexample.  save's operation sequence opens the DESTINATION
itself in truncating mode as its very first step — the list of operations
contains no temporary path and no rename — so immediately after that first
operation the destination holds the empty string: neither the previous store
"OLD" nor the new payload "NEW".  A partially written destination state is
therefore observable mid-invocation. -/
theorem save_not_atomic_cex :
    save EMBEDDINGS_PATH "NEW" =
      [FileOp.openTrunc EMBEDDINGS_PATH, FileOp.write EMBEDDINGS_PATH "NEW",
        FileOp.close EMBEDDINGS_PATH] ∧
    applyOp (fun q => if q = EMBEDDINGS_PATH then some "OLD" else none)
        (FileOp.openTrunc EMBEDDINGS_PATH) EMBEDDINGS_PATH = some "" ∧
    (some "" : Option String) ≠ some "OLD" ∧
    (some "" : Option String) ≠ some "NEW" := by
  refine ⟨rfl, ?_, by decide, by decide⟩
  simp [applyOp]

/-- C6 amended.  Any completed run of save leaves exactly the serialized
payload at the destination, and calling it again is safe (overwrite
semantics for completed runs); but the code writes directly to the
destination with truncate-then-write — no temporary path, no atomic replace —
so an interrupted run can leave a truncated destination. -/
theorem save_overwrite_semantics (fs : String → Option String)
    (dest payload : String) :
    runOps fs (save dest payload) dest = some payload ∧
    runOps (runOps fs (save dest payload)) (save dest payload) dest = some payload := by
  have h : ∀ g : String → Option String,
      runOps g (save dest payload) dest = some payload := by
    intro g
    simp [runOps, save, applyOp]
  exact ⟨h fs, h _⟩

/-- C7.  The removal loop deletes exactly the given keys and is a
success-path no-op for absent keys (every other lookup is unchanged; there
is no error path); removing a text and then upserting it re-invokes the
encoder for it, while upsert alone on an already-present key never invokes
the encoder. -/
theorem remove_semantics (sq : ℚ → ℚ) (enc : String → Vec) (S : Store)
    (T : List String) (t : String) :
    (∀ u, lookup (removeAll S T) u = if u ∈ T then none else lookup S u) ∧
    (upsert sq enc (removeAll S [t]) [t]).2 = [t] ∧
    (hasKey S t = true → (upsert sq enc S [t]).2 = []) := by
  refine ⟨fun u => lookup_removeAll S T u, ?_, ?_⟩
  · have hnone : lookup (removeAll S [t]) t = none := by
      rw [lookup_removeAll]
      simp
    have hk : hasKey (removeAll S [t]) t = false :=
      not_hasKey_of_lookup_none _ t hnone
    show (upsertStep sq enc (removeAll S [t], []) t).2 = [t]
    unfold upsertStep
    rw [if_neg (by rw [hk]; exact Bool.false_ne_true)]
    rfl
  · intro ht
    show (upsertStep sq enc (S, []) t).2 = []
    unfold upsertStep
    rw [if_pos ht]

/-- Witness for C7 on a concrete store and key. -/
theorem remove_semantics_witness :
    lookup (removeAll [("a", [(1 : ℚ)])] ["a"]) "a" =
      (if "a" ∈ ["a"] then none else lookup [("a", [(1 : ℚ)])] "a") ∧
    (upsert (fun q => q) (fun _ => [(1 : ℚ)])
        (removeAll [("a", [(1 : ℚ)])] ["a"]) ["a"]).2 = ["a"] ∧
    (upsert (fun q => q) (fun _ => [(1 : ℚ)]) [("a", [(1 : ℚ)])] ["a"]).2 = [] := by
  obtain ⟨h1, h2, h3⟩ :=
    remove_semantics (fun q => q) (fun _ => [(1 : ℚ)]) [("a", [(1 : ℚ)])] ["a"] "a"
  exact ⟨h1 "a", h2, h3 (by decide)⟩

/-- C9 counterexample.  The persisted file may contain a non-unit vector and
the load path performs no validation or normalization, so after a load the
store can hold the vector [2], whose squared L2 norm is 4: its norm is 2,
which is not within 1e-4 of 1 (4 exceeds (1 + 1e-4) squared). -/
theorem store_norm_invariant_cex :
    load (some (some [("a", [(2 : ℚ)])])) = Except.ok [("a", [(2 : ℚ)])] ∧
    lookup [("a", [(2 : ℚ)])] "a" = some [(2 : ℚ)] ∧
    sumSq [(2 : ℚ)] = 4 ∧ (4 : ℚ) > (1 + 1/10000) * (1 + 1/10000) := by
  refine ⟨rfl, by simp [lookup], by norm_num [sumSq], by norm_num⟩

/-- C9 amended.  Vectors INSERTED by the upsert loop have squared L2 norm
exactly 1 whenever the encoder output has nonzero norm and the square root
is exact on it, and removal preserves all stored vectors; so the unit-norm
invariant holds after remove-then-upsert runs over a store whose loaded
vectors already satisfy it.  It is not established by load itself, which
performs no validation. -/
theorem store_norm_invariant (sq : ℚ → ℚ) (enc : String → Vec) (S : Store)
    (T R : List String)
    (hS : ∀ p ∈ S, sumSq p.2 = 1)
    (henc : ∀ t, sumSq (enc t) ≠ 0 ∧
      sq (sumSq (enc t)) * sq (sumSq (enc t)) = sumSq (enc t)) :
    ∀ p ∈ (upsert sq enc (removeAll S R) T).1, sumSq p.2 = 1 := by
  have hrem : ∀ p ∈ removeAll S R, sumSq p.2 = 1 :=
    fun p hp => hS p (mem_removeAll_sub R S p hp)
  exact norm_upsertFold sq enc
    (fun t => ⟨(henc t).1, (henc t).2⟩) T (removeAll S R, []) hrem

/-- Witness for the amended C9: the single inserted vector on a concrete
run has squared norm 1. -/
theorem store_norm_invariant_witness :
    sumSq (normalize (fun q => q) [(1 : ℚ)]) = 1 := by
  have h1 : sumSq [(1 : ℚ)] = 1 := by simp [sumSq]
  exact store_norm_invariant (fun q => q) (fun _ => [(1 : ℚ)]) [] ["a"] []
    (by simp) (fun t => ⟨by simp [h1], by simp [h1]⟩)
    ("a", normalize (fun q => q) [(1 : ℚ)])
    (by simp [upsert, upsertStep, hasKey, removeAll])

/-- C10.  One run of the update flow (load, removal loop, upsert loop) maps
every key of the loaded store that appears in neither the removal list nor
the new-text list to exactly the same vector, and never invokes the encoder
for such a key. -/
theorem updateFlow_frame (sq : ℚ → ℚ) (enc : String → Vec)
    (file : Option (Option Store)) (oldTexts newTexts : List String)
    (S : Store) (k : String)
    (hload : load file = Except.ok S) (hk : hasKey S k = true)
    (hold : k ∉ oldTexts) (hnew : k ∉ newTexts) :
    ∃ R, updateFlow sq enc file oldTexts newTexts = Except.ok R ∧
      lookup R.1 k = lookup S k ∧ k ∉ R.2 := by
  have h1 : lookup (removeAll S oldTexts) k = lookup S k := by
    rw [lookup_removeAll, if_neg hold]
  have hk2 : hasKey (removeAll S oldTexts) k = true := by
    rw [lookup_isSome_of_hasKey] at hk ⊢
    rw [h1]
    exact hk
  refine ⟨upsert sq enc (removeAll S oldTexts) newTexts, ?_, ?_, ?_⟩
  · unfold updateFlow
    rw [hload]
  · rw [lookup_upsert_of_hasKey sq enc _ newTexts k hk2]
    exact h1
  · exact not_encoded_upsert sq enc _ newTexts k hk2

/-- Witness for C10 on a concrete flow run. -/
theorem updateFlow_frame_witness :
    ∃ R, updateFlow (fun q => q) (fun _ => [(1 : ℚ)])
        (some (some [("a", [(1 : ℚ)])])) ["b"] ["c"] = Except.ok R ∧
      lookup R.1 "a" = lookup [("a", [(1 : ℚ)])] "a" ∧ "a" ∉ R.2 :=
  updateFlow_frame (fun q => q) (fun _ => [(1 : ℚ)])
    (some (some [("a", [(1 : ℚ)])])) ["b"] ["c"] [("a", [(1 : ℚ)])] "a"
    rfl (by decide) (by decide) (by decide)

end EmbedStore
